import Mathlib

/-!
# Verification of `crates/ra_ide/src/inlay_hints.rs`

A shallow embedding of the inlay-hint computation engine: the syntax-node
dispatcher (`get_inlay_hints`), the pattern leaf resolver (`get_leaf_pats`),
the type-hint generator (`get_pat_type_hints`), the parameter-hint generator
(`get_param_name_hints` / `get_fn_signature`) and the public entry point
(`inlay_hints`).  External collaborators (the parser's syntax tree, the
semantic oracle, the `hir` type renderer) are modelled as read-only data and
oracle function records, exactly as the engine consumes them.
-/

namespace InlayHints

/-- A half-open byte-offset interval into the source text
(`ra_syntax::TextRange`). -/
abbrev TextRange := Nat × Nat

/-- File identity token (`FileId`). -/
abbrev FileId := Nat

/-- The embedding of `InlayKind` from the source: the two mutually exclusive hint kinds. -/
inductive InlayKind where
  | typeHint
  | parameterHint
deriving DecidableEq, Repr

/-- The embedding of `InlayHint`: the sole output entity — a range, a kind and a label. -/
structure InlayHint where
  range : TextRange
  kind : InlayKind
  label : String
deriving DecidableEq, Repr

/-- The `ast::Pat` categories that `get_leaf_pats` distinguishes.  Each
constructor stores the node's source range first.  A record pattern stores
its optional `RecordFieldPatList` as the pair of the `.pat()` views of its
explicitly written field patterns (`record_field_pats`, each `.pat()` being
optional) and its shorthand bindings (`bind_pats`, each a `BindPat` given by
its range and optional nested pattern).  Every category the Rust `match`
leaves to `_ => ()` is `otherPat`. -/
inductive Pat where
  | bindPat (range : TextRange) (sub : Option Pat)
  | orPat (range : TextRange) (pats : List Pat)
  | tuplePat (range : TextRange) (args : List Pat)
  | tupleStructPat (range : TextRange) (args : List Pat)
  | recordPat (range : TextRange)
      (fieldPatList : Option (List (Option Pat) × List (TextRange × Option Pat)))
  | parenPat (range : TextRange) (sub : Option Pat)
  | refPat (range : TextRange) (sub : Option Pat)
  | otherPat (range : TextRange)

/-- The `RecordFieldPatList` view stored inside `Pat.recordPat`. -/
abbrev FieldPatList := Option (List (Option Pat) × List (TextRange × Option Pat))

mutual

/-- Number of nodes of a pattern tree (an executable size measure). -/
def patSize : Pat → Nat
  | .bindPat _ s => 1 + optPatSize s
  | .orPat _ ps => 1 + patListSize ps
  | .tuplePat _ ps => 1 + patListSize ps
  | .tupleStructPat _ ps => 1 + patListSize ps
  | .recordPat _ fl => 1 + fieldListSize fl
  | .parenPat _ s => 1 + optPatSize s
  | .refPat _ s => 1 + optPatSize s
  | .otherPat _ => 1

def optPatSize : Option Pat → Nat
  | none => 0
  | some p => 1 + patSize p

def patListSize : List Pat → Nat
  | [] => 0
  | p :: ps => 1 + patSize p + patListSize ps

def fieldListSize : FieldPatList → Nat
  | none => 0
  | some (fps, bps) => 1 + optPatListSize fps + shorthandListSize bps

def optPatListSize : List (Option Pat) → Nat
  | [] => 0
  | op :: l => 1 + optPatSize op + optPatListSize l

def shorthandListSize : List (TextRange × Option Pat) → Nat
  | [] => 0
  | e :: l => 1 + optPatSize e.2 + shorthandListSize l

end

mutual

/-- Structural equality of pattern nodes: the counterpart of `PartialEq` on
`ast::Pat` (two nodes of one tree are equal exactly when they have the same
content and source range). -/
def Pat.beq : Pat → Pat → Bool
  | .bindPat r s, .bindPat r' s' => r == r' && beqOptPat s s'
  | .orPat r ps, .orPat r' ps' => r == r' && beqPatList ps ps'
  | .tuplePat r ps, .tuplePat r' ps' => r == r' && beqPatList ps ps'
  | .tupleStructPat r ps, .tupleStructPat r' ps' => r == r' && beqPatList ps ps'
  | .recordPat r fl, .recordPat r' fl' => r == r' && beqFieldList fl fl'
  | .parenPat r s, .parenPat r' s' => r == r' && beqOptPat s s'
  | .refPat r s, .refPat r' s' => r == r' && beqOptPat s s'
  | .otherPat r, .otherPat r' => r == r'
  | _, _ => false
termination_by a b => patSize a
decreasing_by
  all_goals (simp [patSize, optPatSize, patListSize, fieldListSize,
    optPatListSize, shorthandListSize] <;> omega)

def beqOptPat : Option Pat → Option Pat → Bool
  | none, none => true
  | some a, some b => Pat.beq a b
  | _, _ => false
termination_by a b => optPatSize a
decreasing_by
  all_goals (simp [patSize, optPatSize, patListSize, fieldListSize,
    optPatListSize, shorthandListSize] <;> omega)

def beqPatList : List Pat → List Pat → Bool
  | [], [] => true
  | a :: as, b :: bs => Pat.beq a b && beqPatList as bs
  | _, _ => false
termination_by a b => patListSize a
decreasing_by
  all_goals (simp [patSize, optPatSize, patListSize, fieldListSize,
    optPatListSize, shorthandListSize] <;> omega)

def beqFieldList : FieldPatList → FieldPatList → Bool
  | none, none => true
  | some (fps, bps), some (fps', bps') =>
      beqOptPatList fps fps' && beqShorthandList bps bps'
  | _, _ => false
termination_by a b => fieldListSize a
decreasing_by
  all_goals (simp [patSize, optPatSize, patListSize, fieldListSize,
    optPatListSize, shorthandListSize] <;> omega)

def beqOptPatList : List (Option Pat) → List (Option Pat) → Bool
  | [], [] => true
  | a :: as, b :: bs => beqOptPat a b && beqOptPatList as bs
  | _, _ => false
termination_by a b => optPatListSize a
decreasing_by
  all_goals (simp [patSize, optPatSize, patListSize, fieldListSize,
    optPatListSize, shorthandListSize] <;> omega)

def beqShorthandList :
    List (TextRange × Option Pat) → List (TextRange × Option Pat) → Bool
  | [], [] => true
  | (r, s) :: as, (r', s') :: bs =>
      r == r' && beqOptPat s s' && beqShorthandList as bs
  | _, _ => false
termination_by a b => shorthandListSize a
decreasing_by
  all_goals (simp [patSize, optPatSize, patListSize, fieldListSize,
    optPatListSize, shorthandListSize] <;> omega)

end

theorem patSize_pos (p : Pat) : 1 ≤ patSize p := by
  cases p <;> simp [patSize] <;> omega

theorem beq_refl_all (n : Nat) :
    (∀ a : Pat, patSize a ≤ n → Pat.beq a a = true) ∧
    (∀ a : Option Pat, optPatSize a ≤ n → beqOptPat a a = true) ∧
    (∀ a : List Pat, patListSize a ≤ n → beqPatList a a = true) ∧
    (∀ a : FieldPatList, fieldListSize a ≤ n → beqFieldList a a = true) ∧
    (∀ a : List (Option Pat), optPatListSize a ≤ n → beqOptPatList a a = true) ∧
    (∀ a : List (TextRange × Option Pat),
       shorthandListSize a ≤ n → beqShorthandList a a = true) := by
  induction n with
  | zero =>
      refine ⟨?_, ?_, ?_, ?_, ?_, ?_⟩
      · intro a h; have := patSize_pos a; omega
      · intro a h; cases a with
        | none => simp [beqOptPat, beqPatList, beqFieldList, beqOptPatList, beqShorthandList]
        | some p => simp [optPatSize] at h
      · intro a h; cases a with
        | nil => simp [beqOptPat, beqPatList, beqFieldList, beqOptPatList, beqShorthandList]
        | cons p ps => simp [patListSize] at h
      · intro a h; cases a with
        | none => simp [beqOptPat, beqPatList, beqFieldList, beqOptPatList, beqShorthandList]
        | some fl => obtain ⟨fps, bps⟩ := fl; simp [fieldListSize] at h
      · intro a h; cases a with
        | nil => simp [beqOptPat, beqPatList, beqFieldList, beqOptPatList, beqShorthandList]
        | cons op l => simp [optPatListSize] at h
      · intro a h; cases a with
        | nil => simp [beqOptPat, beqPatList, beqFieldList, beqOptPatList, beqShorthandList]
        | cons e l => simp [shorthandListSize] at h
  | succ n ih =>
      obtain ⟨ihP, ihO, ihL, ihF, ihOL, ihS⟩ := ih
      refine ⟨?_, ?_, ?_, ?_, ?_, ?_⟩
      · intro a h
        cases a with
        | bindPat r s =>
            simp only [patSize] at h
            simp [Pat.beq, ihO s (by omega)]
        | orPat r ps =>
            simp only [patSize] at h
            simp [Pat.beq, ihL ps (by omega)]
        | tuplePat r ps =>
            simp only [patSize] at h
            simp [Pat.beq, ihL ps (by omega)]
        | tupleStructPat r ps =>
            simp only [patSize] at h
            simp [Pat.beq, ihL ps (by omega)]
        | recordPat r fl =>
            simp only [patSize] at h
            simp [Pat.beq, ihF fl (by omega)]
        | parenPat r s =>
            simp only [patSize] at h
            simp [Pat.beq, ihO s (by omega)]
        | refPat r s =>
            simp only [patSize] at h
            simp [Pat.beq, ihO s (by omega)]
        | otherPat r => simp [Pat.beq]
      · intro a h
        cases a with
        | none => simp [beqOptPat, beqPatList, beqFieldList, beqOptPatList, beqShorthandList]
        | some p =>
            simp only [optPatSize] at h
            simpa [beqOptPat] using ihP p (by omega)
      · intro a h
        cases a with
        | nil => simp [beqOptPat, beqPatList, beqFieldList, beqOptPatList, beqShorthandList]
        | cons p ps =>
            simp only [patListSize] at h
            simp [beqPatList, ihP p (by omega), ihL ps (by omega)]
      · intro a h
        cases a with
        | none => simp [beqOptPat, beqPatList, beqFieldList, beqOptPatList, beqShorthandList]
        | some fl =>
            obtain ⟨fps, bps⟩ := fl
            simp only [fieldListSize] at h
            simp [beqFieldList, ihOL fps (by omega), ihS bps (by omega)]
      · intro a h
        cases a with
        | nil => simp [beqOptPat, beqPatList, beqFieldList, beqOptPatList, beqShorthandList]
        | cons op l =>
            simp only [optPatListSize] at h
            simp [beqOptPatList, ihO op (by omega), ihOL l (by omega)]
      · intro a h
        cases a with
        | nil => simp [beqOptPat, beqPatList, beqFieldList, beqOptPatList, beqShorthandList]
        | cons e l =>
            obtain ⟨r, s⟩ := e
            simp [shorthandListSize] at h
            simp [beqShorthandList, ihO s (by omega), ihS l (by omega)]

theorem beq_sound_all (n : Nat) :
    (∀ a b : Pat, patSize a ≤ n → Pat.beq a b = true → a = b) ∧
    (∀ a b : Option Pat, optPatSize a ≤ n → beqOptPat a b = true → a = b) ∧
    (∀ a b : List Pat, patListSize a ≤ n → beqPatList a b = true → a = b) ∧
    (∀ a b : FieldPatList, fieldListSize a ≤ n → beqFieldList a b = true → a = b) ∧
    (∀ a b : List (Option Pat),
       optPatListSize a ≤ n → beqOptPatList a b = true → a = b) ∧
    (∀ a b : List (TextRange × Option Pat),
       shorthandListSize a ≤ n → beqShorthandList a b = true → a = b) := by
  induction n with
  | zero =>
      refine ⟨?_, ?_, ?_, ?_, ?_, ?_⟩
      · intro a b h hb; have := patSize_pos a; omega
      · intro a b h hb
        cases a with
        | none => cases b with
          | none => rfl
          | some q => simp [beqOptPat] at hb
        | some p => simp [optPatSize] at h
      · intro a b h hb
        cases a with
        | nil => cases b with
          | nil => rfl
          | cons q qs => simp [beqPatList] at hb
        | cons p ps => simp [patListSize] at h
      · intro a b h hb
        cases a with
        | none => cases b with
          | none => rfl
          | some fl => simp [beqFieldList] at hb
        | some fl => obtain ⟨fps, bps⟩ := fl; simp [fieldListSize] at h
      · intro a b h hb
        cases a with
        | nil => cases b with
          | nil => rfl
          | cons q qs => simp [beqOptPatList] at hb
        | cons op l => simp [optPatListSize] at h
      · intro a b h hb
        cases a with
        | nil => cases b with
          | nil => rfl
          | cons q qs => simp [beqShorthandList] at hb
        | cons e l => simp [shorthandListSize] at h
  | succ n ih =>
      obtain ⟨ihP, ihO, ihL, ihF, ihOL, ihS⟩ := ih
      refine ⟨?_, ?_, ?_, ?_, ?_, ?_⟩
      · intro a b h hb
        cases a <;> cases b <;> simp only [Pat.beq, Bool.and_eq_true, beq_iff_eq] at hb <;>
          try exact absurd hb (by decide)
        case bindPat.bindPat r s r' s' =>
            simp only [patSize] at h
            exact congrArg₂ Pat.bindPat hb.1 (ihO s s' (by omega) hb.2)
        case orPat.orPat r ps r' ps' =>
            simp only [patSize] at h
            exact congrArg₂ Pat.orPat hb.1 (ihL ps ps' (by omega) hb.2)
        case tuplePat.tuplePat r ps r' ps' =>
            simp only [patSize] at h
            exact congrArg₂ Pat.tuplePat hb.1 (ihL ps ps' (by omega) hb.2)
        case tupleStructPat.tupleStructPat r ps r' ps' =>
            simp only [patSize] at h
            exact congrArg₂ Pat.tupleStructPat hb.1 (ihL ps ps' (by omega) hb.2)
        case recordPat.recordPat r fl r' fl' =>
            simp only [patSize] at h
            exact congrArg₂ Pat.recordPat hb.1 (ihF fl fl' (by omega) hb.2)
        case parenPat.parenPat r s r' s' =>
            simp only [patSize] at h
            exact congrArg₂ Pat.parenPat hb.1 (ihO s s' (by omega) hb.2)
        case refPat.refPat r s r' s' =>
            simp only [patSize] at h
            exact congrArg₂ Pat.refPat hb.1 (ihO s s' (by omega) hb.2)
        case otherPat.otherPat r r' => exact congrArg Pat.otherPat hb
      · intro a b h hb
        cases a with
        | none => cases b with
          | none => rfl
          | some q => simp [beqOptPat] at hb
        | some p =>
            cases b with
            | none => simp [beqOptPat] at hb
            | some q =>
                simp only [optPatSize] at h
                simp only [beqOptPat] at hb
                exact congrArg Option.some (ihP p q (by omega) hb)
      · intro a b h hb
        cases a with
        | nil => cases b with
          | nil => rfl
          | cons q qs => simp [beqPatList] at hb
        | cons p ps =>
            cases b with
            | nil => simp [beqPatList] at hb
            | cons q qs =>
                simp only [patListSize] at h
                simp only [beqPatList, Bool.and_eq_true] at hb
                exact congrArg₂ List.cons (ihP p q (by omega) hb.1)
                  (ihL ps qs (by omega) hb.2)
      · intro a b h hb
        cases a with
        | none => cases b with
          | none => rfl
          | some fl => simp [beqFieldList] at hb
        | some fl =>
            obtain ⟨fps, bps⟩ := fl
            cases b with
            | none => simp [beqFieldList] at hb
            | some fl' =>
                obtain ⟨fps', bps'⟩ := fl'
                simp only [fieldListSize] at h
                simp only [beqFieldList, Bool.and_eq_true] at hb
                have h1 := ihOL fps fps' (by omega) hb.1
                have h2 := ihS bps bps' (by omega) hb.2
                rw [h1, h2]
      · intro a b h hb
        cases a with
        | nil => cases b with
          | nil => rfl
          | cons q qs => simp [beqOptPatList] at hb
        | cons op l =>
            cases b with
            | nil => simp [beqOptPatList] at hb
            | cons oq l' =>
                simp only [optPatListSize] at h
                simp only [beqOptPatList, Bool.and_eq_true] at hb
                exact congrArg₂ List.cons (ihO op oq (by omega) hb.1)
                  (ihOL l l' (by omega) hb.2)
      · intro a b h hb
        cases a with
        | nil => cases b with
          | nil => rfl
          | cons q qs => simp [beqShorthandList] at hb
        | cons e l =>
            cases b with
            | nil => simp [beqShorthandList] at hb
            | cons e' l' =>
                obtain ⟨r, s⟩ := e
                obtain ⟨r', s'⟩ := e'
                simp [shorthandListSize] at h
                simp only [beqShorthandList, Bool.and_eq_true, beq_iff_eq] at hb
                obtain ⟨⟨hr, hs⟩, ht⟩ := hb
                subst hr
                rw [ihO s s' (by omega) hs, ihS l l' (by omega) ht]

theorem Pat.beq_iff_eq (a b : Pat) : Pat.beq a b = true ↔ a = b := by
  constructor
  · exact (beq_sound_all (patSize a)).1 a b le_rfl
  · intro h; subst h; exact (beq_refl_all (patSize a)).1 a le_rfl

instance : DecidableEq Pat := fun a b =>
  decidable_of_iff (Pat.beq a b = true) (Pat.beq_iff_eq a b)

/-- The embedding of `pat.syntax().text_range()`. -/
def Pat.range : Pat → TextRange
  | .bindPat r _ => r
  | .orPat r _ => r
  | .tuplePat r _ => r
  | .tupleStructPat r _ => r
  | .recordPat r _ => r
  | .parenPat r _ => r
  | .refPat r _ => r
  | .otherPat r => r

/-- The embedding of `pat.syntax().kind() == SyntaxKind::BIND_PAT`. -/
def Pat.isBindPat : Pat → Bool
  | .bindPat _ _ => true
  | _ => false

/-- The embedding of `record_field_pat.pat().filter(|pat| pat.syntax().kind() != BIND_PAT)`:
the generic field-pattern path of the record case. -/
def nonBindFieldPat : Option Pat → Option Pat
  | some p => if p.isBindPat then none else some p
  | none => none

/-- The embedding of `bind_pat.pat().unwrap_or_else(|| ast::Pat::from(bind_pat))`: a record
shorthand binding contributes its nested pattern when present, otherwise the
shorthand binding itself. -/
def shorthandExpand : TextRange × Option Pat → Pat
  | (r, some sub) => sub
  | (r, none) => Pat.bindPat r none

/-- The patterns pushed onto the worklist when `get_leaf_pats` processes one
pattern: one arm per arm of the Rust `match` (a `BindPat` with a nested
pattern pushes that pattern; the record case chains the kept generic field
patterns with the expanded shorthand bindings; `_ => ()` pushes nothing). -/
def enqueued : Pat → List Pat
  | .bindPat _ (some sub) => [sub]
  | .bindPat _ none => []
  | .orPat _ pats => pats
  | .tuplePat _ args => args
  | .tupleStructPat _ args => args
  | .recordPat _ none => []
  | .recordPat _ (some (fieldPats, bindPats)) =>
      fieldPats.filterMap nonBindFieldPat ++ bindPats.map shorthandExpand
  | .parenPat _ sub => sub.toList
  | .refPat _ sub => sub.toList
  | .otherPat _ => []

/-- The one arm of the Rust `match` that records a leaf instead of pushing
work: a `BindPat` with no nested pattern. -/
def isLeafCase : Pat → Bool
  | .bindPat _ none => true
  | _ => false

/-- Total size of a worklist, the termination measure of the queue loop. -/
def queueSize (q : List Pat) : Nat := (q.map patSize).sum

theorem queueSize_nil : queueSize [] = 0 := rfl

theorem queueSize_cons (p : Pat) (q : List Pat) :
    queueSize (p :: q) = patSize p + queueSize q := by
  simp [queueSize]

theorem queueSize_append (a b : List Pat) :
    queueSize (a ++ b) = queueSize a + queueSize b := by
  simp [queueSize]

theorem queueSize_le_patListSize (l : List Pat) : queueSize l ≤ patListSize l := by
  induction l with
  | nil => simp [queueSize, patListSize]
  | cons a l ih =>
      rw [queueSize_cons]
      simp only [patListSize]
      omega

theorem queueSize_filterMap_nonBind_le (l : List (Option Pat)) :
    queueSize (l.filterMap nonBindFieldPat) ≤ optPatListSize l := by
  induction l with
  | nil => simp [queueSize, optPatListSize]
  | cons op l ih =>
      rw [List.filterMap_cons]
      cases op with
      | none =>
          simp only [nonBindFieldPat, optPatListSize]
          omega
      | some p =>
          by_cases hb : p.isBindPat
          · simp [List.filterMap_cons, nonBindFieldPat, hb, optPatListSize] <;> omega
          · simp [List.filterMap_cons, nonBindFieldPat, hb, queueSize_cons,
              optPatListSize, optPatSize] <;> omega

theorem patSize_shorthandExpand_le (e : TextRange × Option Pat) :
    patSize (shorthandExpand e) ≤ 1 + optPatSize e.2 := by
  obtain ⟨r, s⟩ := e
  cases s with
  | none => simp [shorthandExpand, patSize, optPatSize]
  | some sub => simp [shorthandExpand, optPatSize]; omega

theorem queueSize_map_shorthand_le (l : List (TextRange × Option Pat)) :
    queueSize (l.map shorthandExpand) ≤ shorthandListSize l := by
  induction l with
  | nil => simp [queueSize, shorthandListSize]
  | cons e l ih =>
      rw [List.map_cons, queueSize_cons]
      have h := patSize_shorthandExpand_le e
      simp only [shorthandListSize]
      omega

theorem enqueued_queueSize_lt (p : Pat) : queueSize (enqueued p) < patSize p := by
  cases p with
  | bindPat r sub =>
      cases sub with
      | none => simp [enqueued, queueSize, patSize, optPatSize]
      | some s => simp [enqueued, queueSize_cons, queueSize, patSize, optPatSize]; omega
  | orPat r pats =>
      have h := queueSize_le_patListSize pats
      simp only [enqueued, patSize]
      omega
  | tuplePat r args =>
      have h := queueSize_le_patListSize args
      simp only [enqueued, patSize]
      omega
  | tupleStructPat r args =>
      have h := queueSize_le_patListSize args
      simp only [enqueued, patSize]
      omega
  | recordPat r fieldPatList =>
      cases fieldPatList with
      | none => simp [enqueued, queueSize, patSize, fieldListSize]
      | some fl =>
          obtain ⟨fieldPats, bindPats⟩ := fl
          have h1 := queueSize_filterMap_nonBind_le fieldPats
          have h2 := queueSize_map_shorthand_le bindPats
          simp only [enqueued, queueSize_append, patSize, fieldListSize]
          omega
  | parenPat r sub =>
      cases sub with
      | none => simp [enqueued, queueSize, patSize, optPatSize]
      | some s =>
          simp only [enqueued, Option.toList, queueSize_cons, queueSize_nil,
            patSize, optPatSize]
          omega
  | refPat r sub =>
      cases sub with
      | none => simp [enqueued, queueSize, patSize, optPatSize]
      | some s =>
          simp only [enqueued, Option.toList, queueSize_cons, queueSize_nil,
            patSize, optPatSize]
          omega
  | otherPat r => simp [enqueued, queueSize, patSize]

/-- The `while let Some(maybe_leaf_pat) = pats_to_process.pop_front()` loop of
`get_leaf_pats`: the first argument is the `VecDeque` (pop at the front, push
at the back), the second the accumulated `leaf_pats`. -/
def get_leaf_pats_aux : List Pat → List Pat → List Pat
  | [], acc => acc
  | p :: q, acc =>
      if isLeafCase p then get_leaf_pats_aux q (acc ++ [p])
      else get_leaf_pats_aux (q ++ enqueued p) acc
termination_by q acc => queueSize q
decreasing_by
  · rw [queueSize_cons]
    have := patSize_pos p
    omega
  · rw [queueSize_append, queueSize_cons]
    have := enqueued_queueSize_lt p
    omega

/-- The embedding of `get_leaf_pats`: breadth-first expansion of a root binding pattern into
its leaf bindings. -/
def get_leaf_pats (root_pat : Pat) : List Pat :=
  get_leaf_pats_aux [root_pat] []

/-- The embedding of `get_leaf_pats_aux` with an explicit iteration budget: `none` means the
budget ran out before the queue drained.  Used to state that the worklist
needs no defensive iteration limit. -/
def get_leaf_pats_fuel : Nat → List Pat → List Pat → Option (List Pat)
  | _, [], acc => some acc
  | 0, _ :: _, _ => none
  | fuel + 1, p :: q, acc =>
      if isLeafCase p then get_leaf_pats_fuel fuel q (acc ++ [p])
      else get_leaf_pats_fuel fuel (q ++ enqueued p) acc

theorem queueSize_join_enqueued (q : List Pat) :
    queueSize ((q.map enqueued).flatten) + q.length ≤ queueSize q := by
  induction q with
  | nil => simp [queueSize]
  | cons p q ih =>
      have h := enqueued_queueSize_lt p
      simp only [List.map_cons, List.flatten_cons, queueSize_append, queueSize_cons,
        List.length_cons]
      omega

/-- Breadth-first reference formulation, following the spec's words for the
Pattern Leaf Resolver: emit the leaves of the current level in order, then
expand every pattern of the level into its sub-patterns and continue with
the next level. -/
def bfsLeafLevels (q : List Pat) : List Pat :=
  if q.isEmpty then []
  else q.filter isLeafCase ++ bfsLeafLevels ((q.map enqueued).flatten)
termination_by queueSize q
decreasing_by
  rename_i hq
  have h := queueSize_join_enqueued q
  have hl : 0 < q.length := by
    cases q with
    | nil => simp at hq
    | cons a as => simp
  omega

/-- The semantic oracle's resolved types.  Modelled from the spec: the
oracle (external `hir`, not part of this file's source) returns either the
distinguished "unknown/unresolved" type or a resolved type, rendered as a
named type constructor applied to type arguments. -/
inductive Ty where
  | unknown
  | app (name : String) (args : List Ty)

/-- The embedding of `Ty::is_unknown`: true exactly on the distinguished unknown type. -/
def Ty.isUnknown : Ty → Bool
  | .unknown => true
  | .app _ _ => false

mutual

/-- Modelled from the spec: the full (uncapped) rendering of a resolved type
by the external type renderer — the constructor name, followed by the
comma-separated renderings of its type arguments in angle brackets. -/
def Ty.display : Ty → String
  | .unknown => "{unknown}"
  | .app name [] => name
  | .app name (a :: rest) =>
      name ++ "<" ++ Ty.display a ++ displayArgsRest rest ++ ">"

def displayArgsRest : List Ty → String
  | [] => ""
  | a :: rest => ", " ++ Ty.display a ++ displayArgsRest rest

end

/-- The outermost type constructor name of a type's rendering. -/
def Ty.outerName : Ty → String
  | .unknown => "{unknown}"
  | .app name _ => name

/-- Modelled from the spec: the truncated rendering — nested type-argument
detail is collapsed into a single ellipsis marker while the outermost
constructor name is preserved in full. -/
def Ty.truncatedRender : Ty → String
  | .unknown => "{unknown}"
  | .app name [] => name
  | .app name (_ :: _) => name ++ "<…>"

/-- Modelled from the spec: `display_truncated` of the external renderer —
no maximum means no truncation, a full rendering within the maximum is
returned untruncated, and otherwise the truncated rendering is produced. -/
def Ty.displayTruncated (ty : Ty) (max_length : Option Nat) : String :=
  match max_length with
  | none => ty.display
  | some m => if ty.display.length ≤ m then ty.display else ty.truncatedRender

/-- The embedding of `FunctionSignature` (built by the ra_ide display layer): only the
ordered parameter names are consumed by this engine. -/
structure FunctionSignature where
  parameter_names : List String

abbrev FnId := Nat

abbrev StructId := Nat

abbrev EnumVariantId := Nat

/-- The embedding of `hir::CallableDef`: what `Ty::as_callable` can resolve to. -/
inductive CallableDef where
  | functionId (id : FnId)
  | structId (id : StructId)
  | enumVariantId (id : EnumVariantId)

/-- The one aspect of an argument's `SyntaxKind` the parameter-hint
generator inspects: whether `arg.syntax().kind() == SyntaxKind::LITERAL`. -/
inductive ArgKind where
  | literal
  | nonLiteral
deriving DecidableEq, Repr

/-- A call argument expression: its syntactic kind and source span. -/
structure ArgExpr where
  range : TextRange
  kind : ArgKind
deriving DecidableEq, Repr

/-- An opaque callee expression (`expr.expr()` of a `CallExpr`), consumed
only through `analyzer.type_of`. -/
abbrev CalleeExpr := Nat

/-- An `ast::CallExpr`: its optional argument list (`arg_list()` with its
`args()`) and its optional callee expression (`expr()`). -/
structure CallExprData where
  argList : Option (List ArgExpr)
  callee : Option CalleeExpr

/-- An `ast::MethodCallExpr`: its optional argument list plus an opaque
identity consumed by `analyzer.resolve_method_call`. -/
structure MethodCallExprData where
  argList : Option (List ArgExpr)
  methodId : Nat

/-- The embedding of `ast::Expr` as far as `get_param_name_hints` matches on it. -/
inductive Expr where
  | callExpr (data : CallExprData)
  | methodCallExpr (data : MethodCallExprData)
  | otherExpr

/-- The `args` extraction at the top of `get_param_name_hints` (`?` on the
argument list; any other expression returns early). -/
def exprArgList : Expr → Option (List ArgExpr)
  | .callExpr e => e.argList
  | .methodCallExpr e => e.argList
  | .otherExpr => none

/-- Whether the expression is a method call (`ast::Expr::MethodCallExpr`). -/
def Expr.isMethodCall : Expr → Bool
  | .methodCallExpr _ => true
  | _ => false

/-- A presence-only view of an `ast::TypeRef` annotation (the engine only
ever asks `is_some`/`is_none` of it). -/
abbrev TypeRef := Unit

/-- A closure parameter (`ast::Param`): its optional explicit type
annotation and its optional pattern. -/
structure Param where
  ascribed_type : Option TypeRef
  pat : Option Pat

/-- The embedding of `ast::Condition` of an `if let` / `while let`: its optional pattern. -/
structure Condition where
  pat : Option Pat

/-- The embedding of `ast::MatchArm`: its optional pattern. -/
structure MatchArm where
  pat : Option Pat

/-- The syntax-node categories `match_ast!` distinguishes in
`get_inlay_hints`; every other node category is `otherNode`. -/
inductive SyntaxNode where
  | letStmt (ascribed_type : Option TypeRef) (pat : Option Pat)
  | lambdaExpr (param_list : Option (List Param))
  | forExpr (pat : Option Pat)
  | ifExpr (condition : Option Condition)
  | whileExpr (condition : Option Condition)
  | matchArmList (arms : List MatchArm)
  | callExpr (data : CallExprData)
  | methodCallExpr (data : MethodCallExprData)
  | otherNode

/-- The per-node `SourceAnalyzer`: the semantic-oracle interface the engine
consumes (type of a pattern, type of an expression, method-call target). -/
structure SourceAnalyzer where
  type_of_pat : Pat → Option Ty
  type_of : CalleeExpr → Option Ty
  resolve_method_call : MethodCallExprData → Option FnId

/-- The `RootDatabase` together with the external oracle operations the
engine invokes on it: `SourceBinder::analyze` (the binder's memo cache is
observationally pure, so the analyzer is a function of the database, the
file and the node), `Ty::as_callable`, and the `FunctionSignature`
constructors `from_hir` / `from_struct` / `from_enum_variant`. -/
structure RootDatabase where
  analyze : FileId → SyntaxNode → SourceAnalyzer
  as_callable : Ty → Option CallableDef
  signature_from_hir : FnId → FunctionSignature
  signature_from_struct : StructId → Option FunctionSignature
  signature_from_enum_variant : EnumVariantId → Option FunctionSignature

/-- The embedding of `get_fn_signature`: resolve the callable target of a call-like
expression to its signature; any resolution failure yields `none`. -/
def get_fn_signature (db : RootDatabase) (analyzer : SourceAnalyzer)
    (expr : Expr) : Option FunctionSignature :=
  match expr with
  | .callExpr e => do
      let callee ← e.callee
      let ty ← analyzer.type_of callee
      let callable_def ← db.as_callable ty
      match callable_def with
      | .functionId it => some (db.signature_from_hir it)
      | .structId it => db.signature_from_struct it
      | .enumVariantId it => db.signature_from_enum_variant it
  | .methodCallExpr e => do
      let fn_def ← analyzer.resolve_method_call e
      some (db.signature_from_hir fn_def)
  | .otherExpr => none

/-- The embedding of `get_param_name_hints`: the hints this call appends to the shared
accumulator (an early `None` return in the source appends nothing).  For a
method call the first parameter name (the receiver) is discarded; parameter
names are zipped positionally with the arguments; a pair is emitted exactly
when the argument is syntactically a literal and the parameter name is
non-empty, anchored at the argument's span. -/
def get_param_name_hints (db : RootDatabase) (analyzer : SourceAnalyzer)
    (expr : Expr) : List InlayHint :=
  match exprArgList expr with
  | none => []
  | some args =>
      match get_fn_signature db analyzer expr with
      | none => []
      | some sig =>
          let parameters :=
            if expr.isMethodCall then sig.parameter_names.drop 1
            else sig.parameter_names
          ((parameters.zip args).filterMap (fun pa =>
              if pa.2.kind == ArgKind.literal && !pa.1.isEmpty then
                some (pa.2.range, pa.1)
              else none)).map
            (fun rp =>
              { range := rp.1, kind := InlayKind.parameterHint, label := rp.2 })

/-- The embedding of `get_pat_type_hints`: the hints this call appends to the shared
accumulator — the leaves of the root pattern, minus the root itself when
`skip_root_pat_hint` is set, minus leaves whose type the oracle cannot
resolve or resolves to the unknown type, each rendered with the truncating
renderer and anchored at the leaf's span. -/
def get_pat_type_hints (db : RootDatabase) (analyzer : SourceAnalyzer)
    (root_pat : Pat) (skip_root_pat_hint : Bool)
    (max_inlay_hint_length : Option Nat) : List InlayHint :=
  let original_pat := root_pat
  (((get_leaf_pats root_pat).filter
      (fun pat => !skip_root_pat_hint || pat != original_pat)).filterMap
    (fun pat =>
      match analyzer.type_of_pat pat with
      | none => none
      | some ty => if ty.isUnknown then none else some (pat.range, ty))).map
    (fun rt =>
      { range := rt.1, kind := InlayKind.typeHint,
        label := Ty.displayTruncated rt.2 max_inlay_hint_length })

/-- The embedding of `get_inlay_hints`: the dispatcher — one syntax node, one lazily built
analyzer (laziness is unobservable in a pure model), a `match_ast!` over
the recognized categories; every failed optional-child lookup (`?`) and
every unrecognized category contributes nothing. -/
def get_inlay_hints (db : RootDatabase) (file_id : FileId) (node : SyntaxNode)
    (max_inlay_hint_length : Option Nat) : List InlayHint :=
  let analyzer := db.analyze file_id node
  match node with
  | .letStmt ascribed pat =>
      if ascribed.isSome then []
      else
        match pat with
        | none => []
        | some p => get_pat_type_hints db analyzer p false max_inlay_hint_length
  | .lambdaExpr param_list =>
      match param_list with
      | none => []
      | some params =>
          ((params.filter (fun cp => cp.ascribed_type.isNone)).filterMap
              (fun cp => cp.pat)).bind
            (fun root_pat =>
              get_pat_type_hints db analyzer root_pat false max_inlay_hint_length)
  | .forExpr pat =>
      match pat with
      | none => []
      | some p => get_pat_type_hints db analyzer p false max_inlay_hint_length
  | .ifExpr condition =>
      match condition with
      | none => []
      | some c =>
          match c.pat with
          | none => []
          | some p => get_pat_type_hints db analyzer p true max_inlay_hint_length
  | .whileExpr condition =>
      match condition with
      | none => []
      | some c =>
          match c.pat with
          | none => []
          | some p => get_pat_type_hints db analyzer p true max_inlay_hint_length
  | .matchArmList arms =>
      (arms.filterMap (fun arm => arm.pat)).bind
        (fun root_pat =>
          get_pat_type_hints db analyzer root_pat true max_inlay_hint_length)
  | .callExpr e => get_param_name_hints db analyzer (Expr.callExpr e)
  | .methodCallExpr e => get_param_name_hints db analyzer (Expr.methodCallExpr e)
  | .otherNode => []

/-- A parsed file, presented exactly as the entry point consumes it:
`file.syntax().descendants()`, every node of the tree in document
(top-down, depth-first) order. -/
structure SourceFile where
  descendants : List SyntaxNode

/-- The embedding of `inlay_hints`: the public entry point — walk every descendant node in
document order, dispatch each, and return the accumulated hint list.  The
`SourceBinder` is constructed fresh inside each invocation, so no state
crosses invocations. -/
def inlay_hints (db : RootDatabase) (file_id : FileId) (file : SourceFile)
    (max_inlay_hint_length : Option Nat) : List InlayHint :=
  file.descendants.bind
    (fun node => get_inlay_hints db file_id node max_inlay_hint_length)

/-! ## Sample oracle data, used to evaluate the engine on concrete inputs -/

/-- A sample call argument: a literal spanning bytes 10–13. -/
def sampleArg : ArgExpr := ⟨(10, 13), ArgKind.literal⟩

/-- A sample method call `t.method(123)` with one literal argument. -/
def sampleMethodCall : Expr := Expr.methodCallExpr ⟨some [sampleArg], 0⟩

/-- A sample analyzer: binding patterns type as `i32`, callees as `F`,
method calls resolve to function `0`. -/
def sampleAnalyzer : SourceAnalyzer :=
  ⟨fun p => if p.isBindPat then some (Ty.app "i32" []) else none,
   fun _ => some (Ty.app "F" []),
   fun _ => some 0⟩

/-- An analyzer whose type oracle always answers with the unknown type. -/
def unknownAnalyzer : SourceAnalyzer :=
  ⟨fun _ => some Ty.unknown, fun _ => none, fun _ => none⟩

/-- A sample database: every function resolves to the two-parameter
signature `(self, param)`. -/
def sampleDb : RootDatabase :=
  ⟨fun _ _ => sampleAnalyzer,
   fun _ => some (CallableDef.functionId 0),
   fun _ => ⟨["self", "param"]⟩,
   fun _ => none,
   fun _ => none⟩

/-! ## Equation lemmas and the breadth-first correspondence -/

theorem get_leaf_pats_aux_nil (acc : List Pat) :
    get_leaf_pats_aux [] acc = acc := by
  simp [get_leaf_pats_aux]

theorem get_leaf_pats_aux_cons (p : Pat) (q acc : List Pat) :
    get_leaf_pats_aux (p :: q) acc =
      if isLeafCase p then get_leaf_pats_aux q (acc ++ [p])
      else get_leaf_pats_aux (q ++ enqueued p) acc := by
  rw [get_leaf_pats_aux]

theorem bfsLeafLevels_eq_def (q : List Pat) :
    bfsLeafLevels q =
      if q.isEmpty then []
      else q.filter isLeafCase ++ bfsLeafLevels ((q.map enqueued).flatten) := by
  rw [bfsLeafLevels]

theorem bfsLeafLevels_nil : bfsLeafLevels [] = [] := by
  rw [bfsLeafLevels_eq_def]
  rfl

theorem isLeafCase_enqueued_nil (p : Pat) (hp : isLeafCase p = true) :
    enqueued p = [] := by
  cases p with
  | bindPat r s =>
      cases s with
      | none => rfl
      | some s' => simp [isLeafCase] at hp
  | orPat r ps => simp [isLeafCase] at hp
  | tuplePat r ps => simp [isLeafCase] at hp
  | tupleStructPat r ps => simp [isLeafCase] at hp
  | recordPat r fl => simp [isLeafCase] at hp
  | parenPat r s => simp [isLeafCase] at hp
  | refPat r s => simp [isLeafCase] at hp
  | otherPat r => simp [isLeafCase] at hp

theorem bfsLeafLevels_append :
    ∀ (n : Nat) (a b : List Pat), queueSize (a ++ b) ≤ n →
      bfsLeafLevels (a ++ b) =
        a.filter isLeafCase ++ bfsLeafLevels (b ++ (a.map enqueued).flatten) := by
  intro n
  induction n with
  | zero =>
      intro a b h
      cases a with
      | nil => simp
      | cons p as =>
          exfalso
          have := patSize_pos p
          rw [List.cons_append, queueSize_cons] at h
          omega
  | succ n ih =>
      intro a b h
      cases a with
      | nil => simp
      | cons p as =>
          rw [bfsLeafLevels_eq_def ((p :: as) ++ b)]
          have hjoin := queueSize_join_enqueued (p :: as)
          have hb : queueSize (b ++ ((p :: as).map enqueued).flatten) ≤ n := by
            rw [queueSize_append]
            rw [queueSize_append] at h
            simp only [List.length_cons] at hjoin
            omega
          rw [ih b (((p :: as).map enqueued).flatten) hb]
          simp only [List.cons_append, List.isEmpty_cons, Bool.false_eq_true,
            if_false, List.filter_cons, List.map_cons, List.map_append,
            List.flatten_cons, List.flatten_append, List.append_assoc]
          by_cases hp : isLeafCase p <;> simp [hp]

theorem get_leaf_pats_aux_eq_bfs :
    ∀ (n : Nat) (q acc : List Pat), queueSize q ≤ n →
      get_leaf_pats_aux q acc = acc ++ bfsLeafLevels q := by
  intro n
  induction n with
  | zero =>
      intro q acc h
      cases q with
      | nil => simp [get_leaf_pats_aux_nil, bfsLeafLevels_nil]
      | cons p q' =>
          exfalso
          have := patSize_pos p
          rw [queueSize_cons] at h
          omega
  | succ n ih =>
      intro q acc h
      cases q with
      | nil => simp [get_leaf_pats_aux_nil, bfsLeafLevels_nil]
      | cons p q' =>
          rw [queueSize_cons] at h
          have hsingle := bfsLeafLevels_append (n + 1) [p] q' (by
            rw [List.singleton_append, queueSize_cons]
            omega)
          rw [List.singleton_append] at hsingle
          simp only [List.filter_singleton, List.map_cons, List.map_nil,
            List.flatten_cons, List.flatten_nil, List.append_nil] at hsingle
          rw [get_leaf_pats_aux_cons]
          by_cases hp : isLeafCase p
          · have hq : queueSize q' ≤ n := by
              have := patSize_pos p
              omega
            rw [if_pos hp, ih q' (acc ++ [p]) hq, hsingle]
            rw [isLeafCase_enqueued_nil p hp, List.append_nil]
            simp [hp]
          · have hq : queueSize (q' ++ enqueued p) ≤ n := by
              rw [queueSize_append]
              have := enqueued_queueSize_lt p
              omega
            rw [if_neg hp, ih (q' ++ enqueued p) acc hq, hsingle]
            simp [hp]

theorem get_leaf_pats_fuel_sufficient :
    ∀ (fuel : Nat) (q acc : List Pat), queueSize q ≤ fuel →
      get_leaf_pats_fuel fuel q acc = some (get_leaf_pats_aux q acc) := by
  intro fuel
  induction fuel with
  | zero =>
      intro q acc h
      cases q with
      | nil => rw [get_leaf_pats_aux_nil]; rfl
      | cons p q' =>
          exfalso
          have := patSize_pos p
          rw [queueSize_cons] at h
          omega
  | succ fuel ih =>
      intro q acc h
      cases q with
      | nil => rw [get_leaf_pats_aux_nil]; rfl
      | cons p q' =>
          rw [queueSize_cons] at h
          rw [get_leaf_pats_aux_cons]
          show (if isLeafCase p then get_leaf_pats_fuel fuel q' (acc ++ [p])
                else get_leaf_pats_fuel fuel (q' ++ enqueued p) acc) = _
          by_cases hp : isLeafCase p
          · rw [if_pos hp, if_pos hp]
            exact ih q' (acc ++ [p]) (by have := patSize_pos p; omega)
          · rw [if_neg hp, if_neg hp]
            refine ih (q' ++ enqueued p) acc ?_
            rw [queueSize_append]
            have := enqueued_queueSize_lt p
            omega

/-- Membership characterization of the type-hint generator's output: a hint
is produced exactly for the leaves surviving the skip-root filter whose
oracle type is resolved and not unknown. -/
theorem mem_get_pat_type_hints (db : RootDatabase) (analyzer : SourceAnalyzer)
    (root : Pat) (skip : Bool) (mx : Option Nat) (h : InlayHint) :
    h ∈ get_pat_type_hints db analyzer root skip mx ↔
      ∃ p ty, p ∈ (get_leaf_pats root).filter (fun q => !skip || q != root) ∧
        analyzer.type_of_pat p = some ty ∧ ty.isUnknown = false ∧
        h = ⟨p.range, InlayKind.typeHint, Ty.displayTruncated ty mx⟩ := by
  simp only [get_pat_type_hints, List.mem_map, List.mem_filterMap]
  constructor
  · rintro ⟨rt, ⟨p, hp, hg⟩, hh⟩
    cases hty : analyzer.type_of_pat p with
    | none => simp only [hty] at hg; exact absurd hg (by simp)
    | some ty =>
        simp only [hty] at hg
        by_cases hu : ty.isUnknown
        · rw [if_pos hu] at hg; exact absurd hg (by simp)
        · rw [if_neg hu] at hg
          obtain rfl : (p.range, ty) = rt := Option.some.inj hg
          exact ⟨p, ty, hp, hty, by simpa using hu, hh.symm⟩
  · rintro ⟨p, ty, hp, hty, hu, rfl⟩
    refine ⟨(p.range, ty), ⟨p, hp, ?_⟩, rfl⟩
    simp only [hty]
    rw [if_neg (by simp [hu])]

/-- Every pattern kept by the generic field-pattern path of a record
pattern is not a binding pattern (the `kind() != BIND_PAT` filter). -/
theorem nonBind_filterMap_not_bindPat (fps : List (Option Pat)) (x : Pat)
    (hx : x ∈ fps.filterMap nonBindFieldPat) : x.isBindPat = false := by
  rw [List.mem_filterMap] at hx
  obtain ⟨op, hop, hfb⟩ := hx
  cases op with
  | none => simp [nonBindFieldPat] at hfb
  | some p =>
      by_cases hb : p.isBindPat
      · simp [nonBindFieldPat, hb] at hfb
      · simp only [nonBindFieldPat] at hfb
        rw [if_neg hb] at hfb
        obtain rfl := Option.some.inj hfb
        simpa using hb

/-- Claim C1: for every local let statement that carries an explicit type
annotation, the dispatcher produces no `TypeHint` for any leaf of the
statement's pattern: the gate is all-or-nothing at the statement level, it
never recurses into the pattern at all. -/
theorem let_ascription_gate_no_hints (db : RootDatabase) (file_id : FileId)
    (ann : TypeRef) (pat : Option Pat) (mx : Option Nat) :
    get_inlay_hints db file_id (SyntaxNode.letStmt (some ann) pat) mx = [] := by
  simp [get_inlay_hints]

/-- Claim C3: with the skip-root flag set (if-let / while-let conditions and
match arms), a hint is in the output exactly when it stems from a leaf of
the pattern that differs from the original root pattern and has a resolved,
non-unknown type: the root itself is excluded, every other leaf is still
processed and may produce a hint. -/
theorem skip_root_excludes_root_leaf (db : RootDatabase)
    (analyzer : SourceAnalyzer) (root : Pat) (mx : Option Nat) (h : InlayHint) :
    h ∈ get_pat_type_hints db analyzer root true mx ↔
      ∃ p ty, p ∈ get_leaf_pats root ∧ p ≠ root ∧
        analyzer.type_of_pat p = some ty ∧ ty.isUnknown = false ∧
        h = ⟨p.range, InlayKind.typeHint, Ty.displayTruncated ty mx⟩ := by
  rw [mem_get_pat_type_hints]
  constructor
  · rintro ⟨p, ty, hp, hty, hu, rfl⟩
    obtain ⟨hp1, hp2⟩ := List.mem_filter.mp hp
    refine ⟨p, ty, hp1, ?_, hty, hu, rfl⟩
    simpa using hp2
  · rintro ⟨p, ty, hp1, hne, hty, hu, rfl⟩
    exact ⟨p, ty, List.mem_filter.mpr ⟨hp1, by simpa using hne⟩, hty, hu, rfl⟩

/-- Claim C4: the unknown-type filter is unconditional: every emitted type
hint stems from a leaf whose oracle type is resolved and is not the
distinguished unknown type; and when the oracle answers unknown (or
nothing) for every leaf, no hint is emitted at all. -/
theorem unknown_type_never_hinted (db : RootDatabase)
    (analyzer : SourceAnalyzer) (root : Pat) (skip : Bool) (mx : Option Nat) :
    (∀ h ∈ get_pat_type_hints db analyzer root skip mx,
        ∃ p ty, p ∈ get_leaf_pats root ∧ analyzer.type_of_pat p = some ty ∧
          ty.isUnknown = false ∧
          h = ⟨p.range, InlayKind.typeHint, Ty.displayTruncated ty mx⟩) ∧
    ((∀ p ∈ get_leaf_pats root, (analyzer.type_of_pat p).all Ty.isUnknown = true) →
        get_pat_type_hints db analyzer root skip mx = []) := by
  constructor
  · intro h hm
    obtain ⟨p, ty, hp, hty, hu, rfl⟩ :=
      (mem_get_pat_type_hints db analyzer root skip mx h).mp hm
    exact ⟨p, ty, (List.mem_filter.mp hp).1, hty, hu, rfl⟩
  · intro hall
    rw [List.eq_nil_iff_forall_not_mem]
    intro h hm
    obtain ⟨p, ty, hp, hty, hu, _⟩ :=
      (mem_get_pat_type_hints db analyzer root skip mx h).mp hm
    have hx := hall p (List.mem_filter.mp hp).1
    rw [hty] at hx
    simp only [Option.all_some] at hx
    rw [hx] at hu
    exact absurd hu (by simp)

/-- Claim C5: the leaf resolver is deterministic breadth-first: the FIFO
worklist of `get_leaf_pats` computes exactly the level-by-level breadth
first expansion `bfsLeafLevels`, whose per-category step `enqueued` enqueues
the children of alternation, tuple, tuple-struct, record, parenthesized and
by-reference patterns, replaces a binding that has a sub-pattern by that
sub-pattern, keeps bare bindings as leaves, and is terminal on every other
category — so within one compound pattern leaves are emitted breadth-first
rather than in source-position order. -/
theorem get_leaf_pats_breadth_first (root : Pat) :
    get_leaf_pats root = bfsLeafLevels [root] := by
  have h := get_leaf_pats_aux_eq_bfs (queueSize [root]) [root] [] le_rfl
  simpa [get_leaf_pats] using h

/-- Claim C9: the entry point retains no state between invocations and is
deterministic: two invocations on the same database, file and limit yield
element-wise identical hint lists, including order (the source constructs
its `SourceBinder` and result vector afresh inside every call; the
embedding is a pure function). -/
theorem inlay_hints_deterministic (db : RootDatabase) (file_id : FileId)
    (file : SourceFile) (mx : Option Nat) :
    inlay_hints db file_id file mx = inlay_hints db file_id file mx ∧
    List.Forall₂ Eq (inlay_hints db file_id file mx)
      (inlay_hints db file_id file mx) :=
  ⟨rfl, List.forall₂_same.mpr (fun _ _ => rfl)⟩

/-- Claim C10: the worklist of `get_leaf_pats` terminates on every finite
pattern without any defensive iteration limit: a budget of `patSize root`
iterations always suffices (the fuelled variant never exhausts its fuel and
agrees with the unbounded resolver), because every processed pattern
enqueues only strictly smaller work. -/
theorem get_leaf_pats_terminates (root : Pat) :
    get_leaf_pats_fuel (patSize root) [root] [] = some (get_leaf_pats root) ∧
    queueSize (enqueued root) < patSize root := by
  constructor
  · have h := get_leaf_pats_fuel_sufficient (patSize root) [root] []
      (by simp [queueSize])
    simpa [get_leaf_pats] using h
  · exact enqueued_queueSize_lt root

/-- Claim C2: for every call-like expression with extracted arguments and a
resolved signature, the number of parameter hints never exceeds
`min(argument count, parameter count minus one for a method call)`; a hint
is emitted exactly for the positional (parameter, argument) pairs whose
argument is syntactically a literal and whose parameter name is non-empty,
anchored at the argument expression's span with the parameter name as
label. -/
theorem param_name_hints_characterization (db : RootDatabase)
    (analyzer : SourceAnalyzer) (expr : Expr) (args : List ArgExpr)
    (sig : FunctionSignature) (hargs : exprArgList expr = some args)
    (hsig : get_fn_signature db analyzer expr = some sig) :
    (get_param_name_hints db analyzer expr).length ≤
      min args.length
        (if expr.isMethodCall then sig.parameter_names.length - 1
         else sig.parameter_names.length) ∧
    (∀ h ∈ get_param_name_hints db analyzer expr,
        h.kind = InlayKind.parameterHint ∧
        ∃ p a, (p, a) ∈ (if expr.isMethodCall then sig.parameter_names.drop 1
            else sig.parameter_names).zip args ∧
          a.kind = ArgKind.literal ∧ p ≠ "" ∧ h.range = a.range ∧ h.label = p) ∧
    (∀ p a, (p, a) ∈ (if expr.isMethodCall then sig.parameter_names.drop 1
          else sig.parameter_names).zip args →
        a.kind = ArgKind.literal → p ≠ "" →
        (⟨a.range, InlayKind.parameterHint, p⟩ : InlayHint)
          ∈ get_param_name_hints db analyzer expr) := by
  have hout : get_param_name_hints db analyzer expr =
      (((if expr.isMethodCall then sig.parameter_names.drop 1
         else sig.parameter_names).zip args).filterMap (fun pa =>
          if pa.2.kind == ArgKind.literal && !pa.1.isEmpty then
            some (pa.2.range, pa.1) else none)).map
        (fun rp =>
          { range := rp.1, kind := InlayKind.parameterHint, label := rp.2 }) := by
    simp only [get_param_name_hints, hargs, hsig]
  refine ⟨?_, ?_, ?_⟩
  · rw [hout, List.length_map]
    have h1 := List.length_filterMap_le (fun pa : String × ArgExpr =>
        if pa.2.kind == ArgKind.literal && !pa.1.isEmpty then
          some (pa.2.range, pa.1) else none)
      ((if expr.isMethodCall then sig.parameter_names.drop 1
        else sig.parameter_names).zip args)
    rw [List.length_zip] at h1
    have h2 : (if expr.isMethodCall then sig.parameter_names.drop 1
        else sig.parameter_names).length =
        (if expr.isMethodCall then sig.parameter_names.length - 1
         else sig.parameter_names.length) := by
      by_cases hm : expr.isMethodCall <;> simp [hm]
    omega
  · intro h hm
    rw [hout, List.mem_map] at hm
    obtain ⟨rp, hrp, rfl⟩ := hm
    rw [List.mem_filterMap] at hrp
    obtain ⟨pa, hpa, hif⟩ := hrp
    by_cases hc : pa.2.kind == ArgKind.literal && !pa.1.isEmpty
    · rw [if_pos hc] at hif
      obtain rfl := Option.some.inj hif
      rw [Bool.and_eq_true] at hc
      obtain ⟨hlit, hne⟩ := hc
      refine ⟨rfl, pa.1, pa.2, hpa, by simpa using hlit, ?_, rfl, rfl⟩
      intro hemp
      rw [hemp] at hne
      exact absurd hne (by decide)
    · rw [if_neg hc] at hif
      exact absurd hif (by simp)
  · intro p a hmem hlit hne
    rw [hout, List.mem_map]
    refine ⟨(a.range, p), ?_, rfl⟩
    rw [List.mem_filterMap]
    refine ⟨(p, a), hmem, ?_⟩
    have hcond : ((p, a).2.kind == ArgKind.literal && !(p, a).1.isEmpty) = true := by
      rw [Bool.and_eq_true]
      refine ⟨by simp [hlit], ?_⟩
      simp only [Bool.not_eq_eq_eq_not, Bool.not_true]
      cases hpe : p.isEmpty
      · rfl
      · exact absurd ((String.isEmpty_iff p).mp hpe) hne
    rw [if_pos hcond]

/-- Witness for C2: on the sample method call `t.method(‹literal at
10–13›)` with signature `(self, param)`, the hint for `param` anchored at
the literal's span is emitted. -/
theorem param_name_hints_characterization_witness :
    (⟨(10, 13), InlayKind.parameterHint, "param"⟩ : InlayHint)
      ∈ get_param_name_hints sampleDb sampleAnalyzer sampleMethodCall := by
  have h := param_name_hints_characterization sampleDb sampleAnalyzer
    sampleMethodCall [sampleArg] ⟨["self", "param"]⟩ rfl rfl
  have hm := h.2.2 "param" sampleArg
    (by simp [sampleMethodCall, Expr.isMethodCall, sampleArg])
    rfl (by simp)
  exact hm

/-- Claim C6: a record shorthand binding is expanded exactly once: its nested
pattern is enqueued when present; otherwise the shorthand binding itself is
enqueued and is a leaf case; and since the generic field-pattern path keeps
no binding-pattern nodes, a shorthand leaf never additionally arrives
through it — its multiplicity in the enqueued work equals its multiplicity
among the expanded shorthand bindings. -/
theorem record_shorthand_single_expansion (range : TextRange)
    (fps : List (Option Pat)) (bps : List (TextRange × Option Pat))
    (r : TextRange) (s : Option Pat) (hmem : (r, s) ∈ bps) :
    (∀ sub, s = some sub →
        sub ∈ enqueued (Pat.recordPat range (some (fps, bps)))) ∧
    (s = none →
        Pat.bindPat r none ∈ enqueued (Pat.recordPat range (some (fps, bps))) ∧
        isLeafCase (Pat.bindPat r none) = true) ∧
    (∀ r' : TextRange,
        List.count (Pat.bindPat r' none)
            (enqueued (Pat.recordPat range (some (fps, bps)))) =
          List.count (Pat.bindPat r' none) (bps.map shorthandExpand)) := by
  have henq : enqueued (Pat.recordPat range (some (fps, bps))) =
      fps.filterMap nonBindFieldPat ++ bps.map shorthandExpand := rfl
  refine ⟨?_, ?_, ?_⟩
  · intro sub hs
    rw [henq]
    refine List.mem_append_right _ ?_
    rw [List.mem_map]
    exact ⟨(r, s), hmem, by subst hs; rfl⟩
  · intro hs
    subst hs
    refine ⟨?_, rfl⟩
    rw [henq]
    refine List.mem_append_right _ ?_
    rw [List.mem_map]
    exact ⟨(r, none), hmem, rfl⟩
  · intro r'
    rw [henq, List.count_append]
    have hz : List.count (Pat.bindPat r' none) (fps.filterMap nonBindFieldPat) = 0 := by
      rw [List.count_eq_zero]
      intro hx
      have hfalse := nonBind_filterMap_not_bindPat fps _ hx
      simp [Pat.isBindPat] at hfalse
    omega

/-- Witness for C6: in a record pattern with one non-binding explicit field
pattern and one shorthand binding without sub-pattern, the shorthand
binding itself is enqueued. -/
theorem record_shorthand_single_expansion_witness :
    Pat.bindPat (5, 6) none ∈
      enqueued (Pat.recordPat (0, 9)
        (some ([some (Pat.otherPat (1, 2))], [((5, 6), none)]))) := by
  have h := record_shorthand_single_expansion (0, 9)
    [some (Pat.otherPat (1, 2))] [((5, 6), none)] (5, 6) none
    (List.mem_singleton.mpr rfl)
  exact (h.2.1 rfl).1

/-- Claim C7: there is no fatal path: the traversal decomposes node by node
(a failing node affects only its own contribution, the rest of the
traversal continues), ineligible categories produce nothing, and every
failing lookup — missing pattern, missing parameter list, missing
condition or condition pattern, missing argument list, unresolved
callable — produces nothing for that single node. -/
theorem dispatch_total_no_fatal (db : RootDatabase) (file_id : FileId)
    (mx : Option Nat) :
    (∀ xs ys (n : SyntaxNode),
        inlay_hints db file_id ⟨xs ++ n :: ys⟩ mx =
          inlay_hints db file_id ⟨xs⟩ mx ++ get_inlay_hints db file_id n mx ++
            inlay_hints db file_id ⟨ys⟩ mx) ∧
    get_inlay_hints db file_id SyntaxNode.otherNode mx = [] ∧
    get_inlay_hints db file_id (SyntaxNode.letStmt none none) mx = [] ∧
    get_inlay_hints db file_id (SyntaxNode.lambdaExpr none) mx = [] ∧
    get_inlay_hints db file_id (SyntaxNode.forExpr none) mx = [] ∧
    get_inlay_hints db file_id (SyntaxNode.ifExpr none) mx = [] ∧
    get_inlay_hints db file_id (SyntaxNode.ifExpr (some ⟨none⟩)) mx = [] ∧
    get_inlay_hints db file_id (SyntaxNode.whileExpr none) mx = [] ∧
    get_inlay_hints db file_id (SyntaxNode.whileExpr (some ⟨none⟩)) mx = [] ∧
    (∀ callee, get_inlay_hints db file_id
        (SyntaxNode.callExpr ⟨none, callee⟩) mx = []) ∧
    (∀ methodId, get_inlay_hints db file_id
        (SyntaxNode.methodCallExpr ⟨none, methodId⟩) mx = []) ∧
    (∀ e : CallExprData,
        get_fn_signature db (db.analyze file_id (SyntaxNode.callExpr e))
            (Expr.callExpr e) = none →
        get_inlay_hints db file_id (SyntaxNode.callExpr e) mx = []) := by
  refine ⟨?_, rfl, rfl, rfl, rfl, rfl, rfl, rfl, rfl, ?_, ?_, ?_⟩
  · intro xs ys n
    simp [inlay_hints, List.cons_bind, List.append_bind, List.append_assoc]
  · intro callee
    simp [get_inlay_hints, get_param_name_hints, exprArgList]
  · intro methodId
    simp [get_inlay_hints, get_param_name_hints, exprArgList]
  · intro e hn
    cases hA : e.argList with
    | none => simp [get_inlay_hints, get_param_name_hints, exprArgList, hA]
    | some args => simp [get_inlay_hints, get_param_name_hints, exprArgList, hA, hn]

/-- Witness for C7: a call whose callee expression is missing resolves to
no signature and contributes no hints. -/
theorem dispatch_total_no_fatal_witness :
    get_inlay_hints sampleDb 0 (SyntaxNode.callExpr ⟨some [sampleArg], none⟩)
      none = [] := by
  have h := dispatch_total_no_fatal sampleDb 0 none
  exact h.2.2.2.2.2.2.2.2.2.2.2 ⟨some [sampleArg], none⟩ rfl

/-- Claim C8 (modelled from the spec: the renderer lives in the external
`hir` crate): with no maximum, or a full rendering within the maximum, the
label is the complete untruncated rendering; when the full rendering would
exceed the maximum, the label preserves the outermost constructor name in
full and — when the type has type arguments — replaces the nested argument
detail by a single ellipsis marker. -/
theorem display_truncation_policy (ty : Ty) (m : Nat) :
    Ty.displayTruncated ty none = Ty.display ty ∧
    ((Ty.display ty).length ≤ m →
        Ty.displayTruncated ty (some m) = Ty.display ty) ∧
    (m < (Ty.display ty).length →
        (∃ rest, Ty.displayTruncated ty (some m) = Ty.outerName ty ++ rest) ∧
        (∀ name targs, ty = Ty.app name targs → targs ≠ [] →
            Ty.displayTruncated ty (some m) = name ++ "<…>" ∧
            (name.toList.count '…' = 0 →
              ((Ty.displayTruncated ty (some m)).toList.count '…') = 1))) := by
  refine ⟨rfl, ?_, ?_⟩
  · intro hle
    simp [Ty.displayTruncated, hle]
  · intro hgt
    have hnle : ¬ (Ty.display ty).length ≤ m := by omega
    constructor
    · cases ty with
      | unknown =>
          exact ⟨"", by simp [Ty.displayTruncated, hnle, Ty.truncatedRender,
            Ty.outerName]⟩
      | app name targs =>
          cases targs with
          | nil =>
              exact ⟨"", by simp [Ty.displayTruncated, hnle, Ty.truncatedRender,
                Ty.outerName]⟩
          | cons a rest' =>
              exact ⟨"<…>", by simp [Ty.displayTruncated, hnle,
                Ty.truncatedRender, Ty.outerName]⟩
    · rintro name targs rfl hne
      cases targs with
      | nil => exact absurd rfl hne
      | cons a rest' =>
          have heq : Ty.displayTruncated (Ty.app name (a :: rest')) (some m)
              = name ++ "<…>" := by
            simp [Ty.displayTruncated, hnle, Ty.truncatedRender]
          refine ⟨heq, ?_⟩
          intro hcount
          rw [heq]
          have hsplit : (name ++ "<…>").toList = name.toList ++ "<…>".toList := by
            simp [String.toList]
          rw [hsplit, List.count_append, hcount]
          rfl

/-- Witness for C8: rendering `Long<u32>` with cap 3 truncates to the outer
name followed by one ellipsis marker. -/
theorem display_truncation_policy_witness :
    Ty.displayTruncated (Ty.app "Long" [Ty.app "u32" []]) (some 3)
      = "Long" ++ "<…>" := by
  have hd : Ty.display (Ty.app "Long" [Ty.app "u32" []]) = "Long<u32>" := by
    rw [Ty.display, Ty.display, displayArgsRest]
    rfl
  have h := display_truncation_policy (Ty.app "Long" [Ty.app "u32" []]) 3
  have hgt : 3 < (Ty.display (Ty.app "Long" [Ty.app "u32" []])).length := by
    rw [hd]
    decide
  exact ((h.2.2 hgt).2 "Long" [Ty.app "u32" []] rfl (by simp)).1

/-- Witness for C3: on the tuple pattern `(a, b)` with skip-root set, the
hint for the leaf `a` (which differs from the root) is emitted. -/
theorem skip_root_excludes_root_leaf_witness :
    (⟨(1, 2), InlayKind.typeHint,
        Ty.displayTruncated (Ty.app "i32" []) none⟩ : InlayHint)
      ∈ get_pat_type_hints sampleDb sampleAnalyzer
          (Pat.tuplePat (0, 6) [Pat.bindPat (1, 2) none, Pat.bindPat (4, 5) none])
          true none := by
  refine (skip_root_excludes_root_leaf sampleDb sampleAnalyzer _ none _).mpr
    ⟨Pat.bindPat (1, 2) none, Ty.app "i32" [], ?_, ?_, rfl, rfl, rfl⟩
  · simp [get_leaf_pats, get_leaf_pats_aux_cons, get_leaf_pats_aux_nil,
      isLeafCase, enqueued]
  · intro hcontra
    exact Pat.noConfusion hcontra

/-- Witness for C4: when the oracle resolves every leaf to the unknown
type, the generator emits nothing. -/
theorem unknown_type_never_hinted_witness :
    get_pat_type_hints sampleDb unknownAnalyzer (Pat.bindPat (0, 1) none)
      false none = [] :=
  (unknown_type_never_hinted sampleDb unknownAnalyzer (Pat.bindPat (0, 1) none)
    false none).2 (fun _ _ => rfl)

end InlayHints
